import Mathlib

/-
Verification of the zdns response cache, persistence format and hijack
evaluator against their natural-language specification.

The Go sources are shallowly embedded: machine integers become Nat (with
their Go-type bounds carried as hypotheses where they matter), time.Time
instants become Int nanoseconds since the epoch, fallible operations
return Option, and the mutable Cache becomes explicit state passing.
Calls received by the supplied persistence backend are recorded as a
trace; methods of the default no-op backend are not recorded.
-/

namespace Zdns

/-! ### Go standard-library helpers used by the cache

Models of the pieces of strconv, encoding/hex and strings.Fields that
Value.Pack and Unpack call. -/

/-- The character Go uses for the digit value n below 16: ASCII digits for
n below 10, lowercase letters for 10..15. -/
def digitChar (n : Nat) : Char :=
  if n < 10 then Char.ofNat (48 + n) else Char.ofNat (87 + n)

/-- Decimal rendering of a Nat, as strconv.FormatUint with base 10. -/
def natToDec (n : Nat) : List Char :=
  if _h : n < 10 then [digitChar n]
  else natToDec (n / 10) ++ [digitChar (n % 10)]
decreasing_by exact Nat.div_lt_self (by omega) (by omega)

/-- Decimal rendering of an Int, as strconv.FormatInt with base 10. -/
def intToDec (i : Int) : List Char :=
  if i < 0 then Char.ofNat 45 :: natToDec i.natAbs else natToDec i.natAbs

/-- The numeric value of a decimal digit character, none otherwise. -/
def decDigit (c : Char) : Option Nat :=
  if 48 ≤ c.toNat ∧ c.toNat ≤ 57 then some (c.toNat - 48) else none

/-- Accumulating decimal parse over a character list; fails on the first
non-digit, as strconv does. -/
def decValueAux : Nat → List Char → Option Nat
  | acc, [] => some acc
  | acc, c :: cs =>
    match decDigit c with
    | some d => decValueAux (acc * 10 + d) cs
    | none => none

/-- Decimal parse of a non-empty all-digit character list. -/
def decValue (cs : List Char) : Option Nat :=
  if cs.isEmpty then none else decValueAux 0 cs

/-- strconv.ParseUint(s, 10, 32): digits only, no sign, value below 2^32.
Go rejects on overflow while accumulating; accepting iff the final value
fits is the same accept set. -/
def parseUint32 (cs : List Char) : Option Nat :=
  match decValue cs with
  | some n => if n < 2 ^ 32 then some n else none
  | none => none

/-- strconv.ParseInt(s, 10, 64): optional single leading sign, then digits,
value within the signed 64-bit range. -/
def parseInt64 (cs : List Char) : Option Int :=
  match cs with
  | [] => none
  | c :: rest =>
    if c = Char.ofNat 45 then
      match decValue rest with
      | some n => if n ≤ 2 ^ 63 then some (-(n : Int)) else none
      | none => none
    else if c = Char.ofNat 43 then
      match decValue rest with
      | some n => if n < 2 ^ 63 then some (n : Int) else none
      | none => none
    else
      match decValue (c :: rest) with
      | some n => if n < 2 ^ 63 then some (n : Int) else none
      | none => none

/-- Two lowercase hex digits for a byte, high nibble first, as
encoding/hex produces. -/
def hexByte (b : Nat) : List Char := [digitChar (b / 16), digitChar (b % 16)]

/-- encoding/hex EncodeToString over a byte sequence. -/
def hexEncode (bs : List Nat) : List Char := (bs.map hexByte).flatten

/-- The numeric value of a hex digit character; encoding/hex accepts both
cases on decode. -/
def hexDigit (c : Char) : Option Nat :=
  if 48 ≤ c.toNat ∧ c.toNat ≤ 57 then some (c.toNat - 48)
  else if 97 ≤ c.toNat ∧ c.toNat ≤ 102 then some (c.toNat - 87)
  else if 65 ≤ c.toNat ∧ c.toNat ≤ 70 then some (c.toNat - 55)
  else none

/-- encoding/hex DecodeString: fails on odd length or a non-hex digit. -/
def hexDecode : List Char → Option (List Nat)
  | [] => some []
  | [_] => none
  | c1 :: c2 :: cs =>
    match hexDigit c1, hexDigit c2, hexDecode cs with
    | some h, some l, some rest => some ((h * 16 + l) :: rest)
    | _, _, _ => none

/-- Whitespace test used by strings.Fields, restricted to the ASCII
whitespace characters (space, tab, newline, vertical tab, form feed,
carriage return); the persisted format only ever meets these. -/
def isSpaceChar (c : Char) : Bool :=
  c = ' ' || c = Char.ofNat 9 || c = Char.ofNat 10 ||
  c = Char.ofNat 11 || c = Char.ofNat 12 || c = Char.ofNat 13

/-- Worker for fields: splits around runs of whitespace, carrying the
current word reversed. -/
def fieldsAux : List Char → List Char → List (List Char)
  | [], acc => if acc.isEmpty then [] else [acc.reverse]
  | c :: cs, acc =>
    if isSpaceChar c then
      if acc.isEmpty then fieldsAux cs [] else acc.reverse :: fieldsAux cs []
    else fieldsAux cs (c :: acc)

/-- strings.Fields: the whitespace-separated words of a character list. -/
def fields (cs : List Char) : List (List Char) := fieldsAux cs []

/-! ### DNS message model

The fields of miekg/dns messages that the cache observes: response code,
question section, and the three record sections with their types and
TTLs. -/

/-- One entry of the question section. -/
structure Question where
  Name : String
  Qtype : Nat
  Qclass : Nat
deriving DecidableEq

/-- One resource record, reduced to the header fields the cache reads. -/
structure RR where
  Rrtype : Nat
  Ttl : Nat
deriving DecidableEq

/-- A DNS message, reduced to the fields the cache reads. -/
structure Msg where
  Rcode : Nat
  Question : List Question
  Answer : List RR
  Ns : List RR
  Extra : List RR
deriving DecidableEq

/-- dns.TypeOPT, the EDNS pseudo record type skipped by MinTTL. -/
def TypeOPT : Nat := 41

/-- dns.TypeA. -/
def TypeA : Nat := 1

/-- dns.TypeAAAA. -/
def TypeAAAA : Nat := 28

/-- dns.RcodeSuccess (NOERROR). -/
def RcodeSuccess : Nat := 0

/-- dns.RcodeNameError (NXDOMAIN). -/
def RcodeNameError : Nat := 3

/-- The min helper of dnsutil. -/
def minU (x y : Nat) : Nat := if x < y then x else y

/-- The TTL seconds computed by dnsutil.MinTTL: fold min over answer,
authority and additional sections, skipping OPT records in the latter,
starting from the RFC 2181 maximum. -/
def minTTLSecs (msg : Msg) : Nat :=
  let t1 := msg.Answer.foldl (fun ttl rr => minU rr.Ttl ttl) (2 ^ 31 - 1)
  let t2 := msg.Ns.foldl (fun ttl rr => minU rr.Ttl ttl) t1
  msg.Extra.foldl
    (fun ttl rr => if rr.Rrtype = TypeOPT then ttl else minU rr.Ttl ttl) t2

/-- dnsutil.MinTTL as a Go Duration in nanoseconds. -/
def MinTTL (msg : Msg) : Nat := minTTLSecs msg * 1000000000

/-- cache.canCache: positive minimum TTL and rcode NOERROR or NXDOMAIN. -/
def canCache (msg : Msg) : Bool :=
  if MinTTL msg = 0 then false
  else msg.Rcode == RcodeSuccess || msg.Rcode == RcodeNameError

/-! ### Cached values and the persisted line format -/

/-- cache.Value: a fingerprint key, the creation instant (nanoseconds
since the epoch, modelling time.Time) and the stored message. -/
structure Value where
  Key : Nat
  CreatedAt : Int
  msg : Msg
deriving DecidableEq

/-- Time.Unix for the nanosecond model: whole seconds, floored. -/
def unixSecs (t : Int) : Int := Int.fdiv t 1000000000

/-- time.Unix(secs, 0) for the nanosecond model. -/
def timeUnix (secs : Int) : Int := secs * 1000000000

/-- Little-endian base-128 rendering with continuation bit; every emitted
byte is below 256 and the encoding is self-delimiting. -/
def encVarint (n : Nat) : List Nat :=
  if h : n < 128 then [n]
  else (n % 128 + 128) :: encVarint (n / 128)
decreasing_by exact Nat.div_lt_self (by omega) (by omega)

/-- Decoder for encVarint, returning the value and the remaining bytes. -/
def decVarint : List Nat → Option (Nat × List Nat)
  | [] => none
  | b :: bs =>
    if b < 128 then some (b, bs)
    else
      match decVarint bs with
      | some (n, rest) => some (b - 128 + 128 * n, rest)
      | none => none

/-- Length-prefixed encoding of a list, elementwise. -/
def encList (enc : α → List Nat) (xs : List α) : List Nat :=
  encVarint xs.length ++ (xs.map enc).flatten

/-- Decodes exactly k elements. -/
def decListAux (dec : List Nat → Option (α × List Nat)) :
    Nat → List Nat → Option (List α × List Nat)
  | 0, bs => some ([], bs)
  | k + 1, bs =>
    match dec bs with
    | some (x, rest) =>
      match decListAux dec k rest with
      | some (xs, rest2) => some (x :: xs, rest2)
      | none => none
    | none => none

/-- Decoder for encList. -/
def decList (dec : List Nat → Option (α × List Nat)) (bs : List Nat) :
    Option (List α × List Nat) :=
  match decVarint bs with
  | some (n, rest) => decListAux dec n rest
  | none => none

/-- Character encoder: the scalar value as a varint. -/
def encChar (c : Char) : List Nat := encVarint c.toNat

/-- Character decoder. -/
def decChar (bs : List Nat) : Option (Char × List Nat) :=
  match decVarint bs with
  | some (n, rest) => some (Char.ofNat n, rest)
  | none => none

/-- String encoder: length-prefixed character scalars. -/
def encString (s : String) : List Nat := encList encChar s.toList

/-- String decoder. -/
def decString (bs : List Nat) : Option (String × List Nat) :=
  match decList decChar bs with
  | some (cs, rest) => some (String.mk cs, rest)
  | none => none

/-- Question encoder. -/
def encQuestion (q : Question) : List Nat :=
  encString q.Name ++ encVarint q.Qtype ++ encVarint q.Qclass

/-- Question decoder. -/
def decQuestion (bs : List Nat) : Option (Question × List Nat) :=
  match decString bs with
  | some (name, r1) =>
    match decVarint r1 with
    | some (qtype, r2) =>
      match decVarint r2 with
      | some (qclass, r3) => some (Question.mk name qtype qclass, r3)
      | none => none
    | none => none
  | none => none

/-- Record encoder. -/
def encRR (rr : RR) : List Nat := encVarint rr.Rrtype ++ encVarint rr.Ttl

/-- Record decoder. -/
def decRR (bs : List Nat) : Option (RR × List Nat) :=
  match decVarint bs with
  | some (t, r1) =>
    match decVarint r1 with
    | some (ttl, r2) => some (RR.mk t ttl, r2)
    | none => none
  | none => none

/-- Modelled from the spec: the DNS wire codec (miekg/dns Msg.Pack) is an
out-of-scope external collaborator, specified only as a byte serialization
of the message that Unpack inverts. Modelled as an injective serialization
of the message fields the cache observes; it always begins with at least
one byte. -/
def msgPackBytes (m : Msg) : List Nat :=
  encVarint m.Rcode ++ encList encQuestion m.Question ++
  encList encRR m.Answer ++ encList encRR m.Ns ++ encList encRR m.Extra

/-- Modelled from the spec: the DNS wire codec decode direction (miekg/dns
Msg.Unpack); fails unless the bytes are exactly one packed message. -/
def msgUnpackBytes (bs : List Nat) : Option Msg :=
  match decVarint bs with
  | some (rcode, r1) =>
    match decList decQuestion r1 with
    | some (qs, r2) =>
      match decList decRR r2 with
      | some (ans, r3) =>
        match decList decRR r3 with
        | some (ns, r4) =>
          match decList decRR r4 with
          | some (extra, r5) =>
            match r5 with
            | [] => some (Msg.mk rcode qs ans ns extra)
            | _ => none
          | none => none
        | none => none
      | none => none
    | none => none
  | none => none

/-- Value.Pack: decimal key, space, decimal UNIX seconds of the creation
instant, space, lowercase hex of the packed message. -/
def Value.Pack (v : Value) : String :=
  String.mk (natToDec v.Key ++ ' ' :: intToDec (unixSecs v.CreatedAt) ++
    ' ' :: hexEncode (msgPackBytes v.msg))

/-- cache.Unpack: split into whitespace-separated fields, reject fewer
than three, parse key, seconds and hex-packed message from the first
three, ignore the rest. -/
def Unpack (value : String) : Option Value :=
  match fields value.toList with
  | f0 :: f1 :: f2 :: _ =>
    match parseUint32 f0 with
    | none => none
    | some key =>
      match parseInt64 f1 with
      | none => none
      | some secs =>
        match hexDecode f2 with
        | none => none
        | some data =>
          match msgUnpackBytes data with
          | none => none
          | some msg => some (Value.mk key (timeUnix secs) msg)
  | _ => none

/-- Models Value.Question. The Go accessor indexes Question[0]
unconditionally; the embedding returns none exactly when that index is
out of range. -/
def Value.Question (v : Value) : Option String :=
  (v.msg.Question.head?).map (fun q => q.Name)

/-- Models Value.Qtype, with the same unconditional indexing. -/
def Value.Qtype (v : Value) : Option Nat :=
  (v.msg.Question.head?).map (fun q => q.Qtype)

/-! ### The cache engine

The mutable Cache becomes explicit state passing; c.now() becomes an
explicit instant argument. The supplied backend is modelled by the trace
of calls it receives; the default no-op backend swallows calls. The Go
field backend initially points at the default backend and is redirected
to the supplied one only at the end of load, captured by the attached
flag. -/

/-- One call received by the supplied persistence backend. -/
inductive BackendCall where
  | set (key : Nat) (value : Value)
  | evict (key : Nat)
  | reset
deriving DecidableEq

/-- One deferred operation sitting in the background task queue. -/
inductive BgOp where
  | evictOp (key : Nat)
  | refreshOp (key : Nat) (old : Msg)
deriving DecidableEq

/-- cache.Cache. client records whether a resolver client is configured
(prefetch on); attached records whether c.backend points at the supplied
backend; calls is the trace the supplied backend has received; queue is
the pending background work. -/
structure Cache where
  capacity : Nat
  values : List (Nat × Value)
  keys : List Nat
  client : Bool
  attached : Bool
  calls : List BackendCall
  queue : List BgOp
deriving DecidableEq

/-- Go map read values[key]. -/
def mapGet (m : List (Nat × Value)) (key : Nat) : Option Value :=
  match m with
  | [] => none
  | p :: rest => if p.1 = key then some p.2 else mapGet rest key

/-- Go map delete(values, key). -/
def mapErase (m : List (Nat × Value)) (key : Nat) : List (Nat × Value) :=
  m.filter (fun p => p.1 != key)

/-- Go map write values[key] = v. -/
def mapInsert (m : List (Nat × Value)) (key : Nat) (v : Value) :
    List (Nat × Value) :=
  mapErase m key ++ [(key, v)]

/-- Cache.removeKey: drop every occurrence of key from the insertion
log. -/
def removeKey (keys : List Nat) (key : Nat) : List Nat :=
  keys.filter (fun k => k != key)

/-- A call on c.backend: recorded only once the supplied backend is
attached; before that it lands on the default no-op backend. -/
def backendCall (c : Cache) (call : BackendCall) : Cache :=
  if c.attached then { c with calls := c.calls ++ [call] } else c

/-- Cache.isExpired: strictly past the creation instant plus the minimum
TTL. -/
def isExpired (now : Int) (v : Value) : Bool :=
  decide (v.CreatedAt + (MinTTL v.msg : Int) < now)

/-- Cache.setValue. In every reachable state the insertion log mirrors
the value map, so when the map is full the log is non-empty; headD
models the Go index keys[0]. The Go capacity is clamped non-negative at
construction, hence capacity > 0 is capacity != 0. -/
def Cache.setValue (c : Cache) (value : Value) : Bool × Cache :=
  if c.capacity == 0 || !(canCache value.msg) then (false, c)
  else
    let c1 :=
      if c.values.length == c.capacity && c.capacity != 0 then
        let evictKey := c.keys.headD 0
        backendCall
          { c with values := mapErase c.values evictKey, keys := c.keys.tail }
          (BackendCall.evict evictKey)
      else c
    let c2 := { c1 with
      values := mapInsert c1.values value.Key value,
      keys := removeKey c1.keys value.Key ++ [value.Key] }
    (true, backendCall c2 (BackendCall.set value.Key value))

/-- Cache.set: stamp the value with the current instant. -/
def Cache.set (c : Cache) (now : Int) (key : Nat) (msg : Msg) :
    Bool × Cache :=
  c.setValue (Value.mk key now msg)

/-- The exported Cache.Set, which discards the insertion outcome. -/
def Cache.SetMsg (c : Cache) (now : Int) (key : Nat) (msg : Msg) : Cache :=
  (c.set now key msg).2

/-- Cache.getValue: on an expired entry, enqueue a refresh and return it
when prefetch is on, else enqueue an eviction and miss. -/
def Cache.getValue (c : Cache) (now : Int) (key : Nat) :
    Option Value × Cache :=
  match mapGet c.values key with
  | none => (none, c)
  | some v =>
    if isExpired now v then
      if !c.client then
        (none, { c with queue := c.queue ++ [BgOp.evictOp key] })
      else
        (some v, { c with queue := c.queue ++ [BgOp.refreshOp key v.msg] })
    else (some v, c)

/-- Cache.Get: the stored message and whether the lookup hit. -/
def Cache.Get (c : Cache) (now : Int) (key : Nat) : Option Msg × Cache :=
  match c.getValue now key with
  | (none, c2) => (none, c2)
  | (some v, c2) => (some v.msg, c2)

/-- The zero Value a Go map read yields for a missing key. -/
def zeroValue : Value := Value.mk 0 0 (Msg.mk 0 [] [] [] [])

/-- Cache.List: up to n values, most recent first. -/
def Cache.ListVals (c : Cache) (n : Nat) : List Value :=
  (c.keys.reverse.take n).map (fun k => (mapGet c.values k).getD zeroValue)

/-- Cache.Reset: clear memory and forward reset to the backend. -/
def Cache.Reset (c : Cache) : Cache :=
  backendCall { c with values := [], keys := [] } BackendCall.reset

/-- Cache.evict: remove from the value map and the insertion log, and
forward the eviction to the backend. -/
def Cache.evict (c : Cache) (key : Nat) : Cache :=
  backendCall
    { c with values := mapErase c.values key, keys := removeKey c.keys key }
    (BackendCall.evict key)

/-- Cache.refresh. The resolver exchange is external; its outcome is the
reply argument, none standing for an exchange error, in which case the
entry is left in place for retry. On a reply the entry is re-inserted;
if the insert is refused the key is evicted. -/
def Cache.refresh (c : Cache) (now : Int) (key : Nat) (reply : Option Msg) :
    Cache :=
  match reply with
  | none => c
  | some r =>
    match c.set now key r with
    | (true, c2) => c2
    | (false, c2) => c2.evict key

/-- Cache.load: with capacity zero, reset the supplied backend and keep
the default one. Otherwise insert values[n:] of the persisted sequence
through setValue (whose backend calls still land on the default backend),
evict values[:n] from the supplied backend when over capacity, and only
then attach the supplied backend. -/
def Cache.load (c : Cache) (persisted : List Value) : Cache :=
  if c.capacity = 0 then
    { c with calls := c.calls ++ [BackendCall.reset] }
  else
    let n := if c.capacity < persisted.length then c.capacity else 0
    let c2 := (persisted.drop n).foldl (fun acc v => (acc.setValue v).2) c
    let c3 :=
      if c.capacity < persisted.length then
        { c2 with calls := c2.calls ++
            (persisted.take n).map (fun v => BackendCall.evict v.Key) }
      else c2
    { c3 with attached := true }

/-- cache.newCache: clamp a negative capacity to zero, start empty with
the default backend, then load from the supplied backend. -/
def newCache (capacity : Int) (client : Bool) (persisted : List Value) :
    Cache :=
  Cache.load (Cache.mk capacity.toNat [] [] client false [] []) persisted

/-- A sequence of exported Set calls, oldest first. -/
def runSets (c : Cache) (ops : List (Int × Nat × Msg)) : Cache :=
  ops.foldl (fun acc op => acc.SetMsg op.1 op.2.1 op.2.2) c

/-! ### The hijack evaluator -/

/-- One host address. The Go test ipAddr.IP.To4() != nil is carried as
the isIPv4 flag; addr is the opaque address identity. -/
structure IPAddr where
  isIPv4 : Bool
  addr : String
deriving DecidableEq

/-- net.IPv4zero. -/
def IPv4zero : IPAddr := IPAddr.mk true "0.0.0.0"

/-- net.IPv6zero. -/
def IPv6zero : IPAddr := IPAddr.mk false "::"

/-- hosts.Hosts.Get over the hosts map. -/
def hostsGet (hs : List (String × List IPAddr)) (name : String) :
    Option (List IPAddr) :=
  match hs with
  | [] => none
  | p :: rest => if p.1 = name then some p.2 else hostsGet rest name

/-- nonFqdn: strip one trailing dot. -/
def nonFqdn (s : String) : String :=
  if s.toList.getLast? = some '.' then String.mk s.toList.dropLast else s

/-- The HijackZero mode constant. -/
def HijackZero : Nat := 0

/-- The HijackEmpty mode constant. -/
def HijackEmpty : Nat := 1

/-- The HijackHosts mode constant. -/
def HijackHosts : Nat := 2

/-- dns.Request as the hijack evaluator sees it. -/
structure Request where
  Name : String
  Typ : Nat
deriving DecidableEq

/-- dns.Reply, reduced to its answer section: one (record type, address)
pair per answer record. -/
structure Reply where
  answers : List (Nat × IPAddr)
deriving DecidableEq

/-- Modelled from the spec: dns.ReplyA is outside the repository slice;
per the reply-synthesis rules it answers with one A record per given
address, so an empty address list yields an empty answer section. -/
def ReplyA (name : String) (ips : List IPAddr) : Reply :=
  Reply.mk (ips.map (fun ip => (TypeA, ip)))

/-- Modelled from the spec: dns.ReplyAAAA, as ReplyA with AAAA records. -/
def ReplyAAAA (name : String) (ips : List IPAddr) : Reply :=
  Reply.mk (ips.map (fun ip => (TypeAAAA, ip)))

/-- The hijack evaluator state: the hosts map and the configured mode. -/
structure Server where
  hosts : List (String × List IPAddr)
  hijackMode : Nat
deriving DecidableEq

/-- Server.hijack: only A and AAAA queries whose stripped name is in the
hosts map are hijacked; the Hosts mode partitions the configured
addresses by family with one pass that appends each address to the IPv4
or IPv6 list. -/
def Server.hijack (s : Server) (r : Request) : Option Reply :=
  if r.Typ != TypeA && r.Typ != TypeAAAA then none
  else
    match hostsGet s.hosts (nonFqdn r.Name) with
    | none => none
    | some ipAddrs =>
      if s.hijackMode = HijackZero then
        if r.Typ = TypeA then some (ReplyA r.Name [IPv4zero])
        else if r.Typ = TypeAAAA then some (ReplyAAAA r.Name [IPv6zero])
        else none
      else if s.hijackMode = HijackEmpty then some (Reply.mk [])
      else if s.hijackMode = HijackHosts then
        let ipv4Addr := ipAddrs.filter (fun ip => ip.isIPv4)
        let ipv6Addr := ipAddrs.filter (fun ip => !ip.isIPv4)
        if r.Typ = TypeA then some (ReplyA r.Name ipv4Addr)
        else if r.Typ = TypeAAAA then some (ReplyAAAA r.Name ipv6Addr)
        else none
      else none

/-! ### Concrete sample data for witnesses and counterexamples -/

/-- A concrete cacheable reply: one A answer with TTL 300, rcode
NOERROR. -/
def msgEx : Msg :=
  Msg.mk 0 [Question.mk "example.com." 1 1] [RR.mk 1 300] [] []

/-- A non-cacheable reply: its answer TTL is zero. -/
def msgZeroTTL : Msg :=
  Msg.mk 0 [Question.mk "zero.example." 1 1] [RR.mk 1 0] [] []

/-- A non-cacheable reply: rcode SERVFAIL. -/
def msgServFail : Msg :=
  Msg.mk 2 [Question.mk "fail.example." 1 1] [RR.mk 1 300] [] []

/-- An Unpack-accepted value whose message has an empty question
section. -/
def noQuestionValue : Value := Value.mk 7 0 (Msg.mk 0 [] [] [] [])

/-- Persisted values v1..v5 for the load scenario, oldest first. -/
def loadSeq : List Value :=
  [Value.mk 1 0 msgEx, Value.mk 2 0 msgEx, Value.mk 3 0 msgEx,
   Value.mk 4 0 msgEx, Value.mk 5 0 msgEx]

/-! ### Lemmas: decimal, hex and fields -/

theorem decDigit_digitChar {d : Nat} (h : d < 10) :
    decDigit (digitChar d) = some d := by
  interval_cases d <;> decide

theorem hexDigit_digitChar {d : Nat} (h : d < 16) :
    hexDigit (digitChar d) = some d := by
  interval_cases d <;> decide

theorem isSpaceChar_digitChar {d : Nat} (h : d < 16) :
    isSpaceChar (digitChar d) = false := by
  interval_cases d <;> decide

theorem digitChar_ne_minus {d : Nat} (h : d < 16) :
    digitChar d ≠ Char.ofNat 45 := by
  interval_cases d <;> decide

theorem digitChar_ne_plus {d : Nat} (h : d < 16) :
    digitChar d ≠ Char.ofNat 43 := by
  interval_cases d <;> decide

theorem natToDec_ne_nil (n : Nat) : natToDec n ≠ [] := by
  rw [natToDec]; split <;> simp

theorem natToDec_mem (n : Nat) :
    ∀ c ∈ natToDec n, ∃ d, d < 10 ∧ c = digitChar d := by
  induction n using Nat.strong_induction_on with
  | _ n ih =>
    rw [natToDec]
    split
    case isTrue h =>
      intro c hc
      simp only [List.mem_singleton] at hc
      exact ⟨n, h, hc⟩
    case isFalse h =>
      intro c hc
      rw [List.mem_append] at hc
      rcases hc with hc | hc
      · exact ih (n / 10) (Nat.div_lt_self (by omega) (by omega)) c hc
      · simp only [List.mem_singleton] at hc
        exact ⟨n % 10, Nat.mod_lt n (by omega), hc⟩

theorem decValueAux_natToDec (n : Nat) : ∀ acc rest,
    decValueAux acc (natToDec n ++ rest) =
      decValueAux (acc * 10 ^ (natToDec n).length + n) rest := by
  induction n using Nat.strong_induction_on with
  | _ n ih =>
    intro acc rest
    rw [natToDec]
    split
    case isTrue h =>
      simp only [List.singleton_append, decValueAux, decDigit_digitChar h,
        List.length_singleton, pow_one]
      rfl
    case isFalse h =>
      rw [List.append_assoc,
        ih (n / 10) (Nat.div_lt_self (by omega) (by omega))]
      simp only [List.singleton_append, decValueAux,
        decDigit_digitChar (Nat.mod_lt n (show 0 < 10 by omega)),
        List.length_append, List.length_singleton]
      have harith :
          (acc * 10 ^ (natToDec (n / 10)).length + n / 10) * 10 + n % 10 =
            acc * 10 ^ ((natToDec (n / 10)).length + 1) + n := by
        have hdm : n / 10 * 10 + n % 10 = n := Nat.div_add_mod' n 10
        calc (acc * 10 ^ (natToDec (n / 10)).length + n / 10) * 10 + n % 10
            = acc * (10 ^ (natToDec (n / 10)).length * 10) +
                (n / 10 * 10 + n % 10) := by ring
          _ = acc * 10 ^ ((natToDec (n / 10)).length + 1) + n := by
              rw [hdm, pow_succ]
      rw [harith]
      rfl

theorem decValue_natToDec (n : Nat) : decValue (natToDec n) = some n := by
  have h := decValueAux_natToDec n 0 []
  rw [List.append_nil] at h
  unfold decValue
  rw [if_neg (by simp [List.isEmpty_iff, natToDec_ne_nil]), h]
  simp [decValueAux]

theorem parseUint32_natToDec {n : Nat} (h : n < 2 ^ 32) :
    parseUint32 (natToDec n) = some n := by
  unfold parseUint32
  rw [decValue_natToDec]
  show (if n < 2 ^ 32 then some n else none) = some n
  rw [if_pos h]

theorem intToDec_mem (i : Int) :
    ∀ c ∈ intToDec i, isSpaceChar c = false := by
  intro c hc
  unfold intToDec at hc
  split at hc
  · rcases List.mem_cons.mp hc with rfl | hc
    · decide
    · obtain ⟨d, hd, rfl⟩ := natToDec_mem _ c hc
      exact isSpaceChar_digitChar (by omega)
  · obtain ⟨d, hd, rfl⟩ := natToDec_mem _ c hc
    exact isSpaceChar_digitChar (by omega)

theorem intToDec_ne_nil (i : Int) : intToDec i ≠ [] := by
  unfold intToDec
  split
  · simp
  · exact natToDec_ne_nil _

theorem parseInt64_intToDec {i : Int} (hlo : -(2 ^ 63) ≤ i)
    (hhi : i < 2 ^ 63) : parseInt64 (intToDec i) = some i := by
  by_cases hi : i < 0
  · unfold intToDec
    rw [if_pos hi]
    simp only [parseInt64, if_true]
    rw [decValue_natToDec]
    show (if i.natAbs ≤ 2 ^ 63 then some (-(i.natAbs : Int)) else none) =
      some i
    rw [if_pos (by omega)]
    congr 1
    omega
  · unfold intToDec
    rw [if_neg hi]
    obtain ⟨c, cs, hcs⟩ : ∃ c cs, natToDec i.natAbs = c :: cs := by
      cases h : natToDec i.natAbs with
      | nil => exact absurd h (natToDec_ne_nil _)
      | cons c cs => exact ⟨c, cs, rfl⟩
    obtain ⟨d, hd, hdc⟩ :=
      natToDec_mem i.natAbs c (by rw [hcs]; exact List.mem_cons_self c cs)
    subst hdc
    rw [hcs]
    simp only [parseInt64]
    rw [if_neg (digitChar_ne_minus (by omega)),
      if_neg (digitChar_ne_plus (by omega)),
      ← hcs, decValue_natToDec]
    show (if i.natAbs < 2 ^ 63 then some ((i.natAbs : Int)) else none) =
      some i
    rw [if_pos (by omega)]
    congr 1
    omega

theorem hexDecode_hexEncode (bs : List Nat) (h : ∀ b ∈ bs, b < 256) :
    hexDecode (hexEncode bs) = some bs := by
  induction bs with
  | nil => rfl
  | cons b rest ih =>
    have hb : b < 256 := h b (List.mem_cons_self b rest)
    have hrest := ih (fun x hx => h x (List.mem_cons_of_mem b hx))
    have hsplit : hexEncode (b :: rest) =
        digitChar (b / 16) :: digitChar (b % 16) :: hexEncode rest := by
      simp [hexEncode, hexByte]
    rw [hsplit]
    simp only [hexDecode, hexDigit_digitChar (show b / 16 < 16 by omega),
      hexDigit_digitChar (show b % 16 < 16 by omega), hrest]
    show some ((b / 16 * 16 + b % 16) :: rest) = some (b :: rest)
    have hbb : b / 16 * 16 + b % 16 = b := by omega
    rw [hbb]

theorem hexEncode_mem (bs : List Nat) (h : ∀ b ∈ bs, b < 256) :
    ∀ c ∈ hexEncode bs, isSpaceChar c = false := by
  intro c hc
  simp only [hexEncode, List.mem_flatten, List.mem_map] at hc
  obtain ⟨l, ⟨b, hb, rfl⟩, hcl⟩ := hc
  have hb256 := h b hb
  simp only [hexByte, List.mem_cons, List.mem_singleton] at hcl
  rcases hcl with rfl | rfl | h'
  · exact isSpaceChar_digitChar (by omega)
  · exact isSpaceChar_digitChar (by omega)
  · cases h'

theorem hexEncode_ne_nil (bs : List Nat) (h : bs ≠ []) :
    hexEncode bs ≠ [] := by
  cases bs with
  | nil => exact absurd rfl h
  | cons b rest => simp [hexEncode, hexByte]

/-! ### Lemmas: the modelled wire codec round-trips -/

theorem decVarint_encVarint (n : Nat) :
    ∀ rest, decVarint (encVarint n ++ rest) = some (n, rest) := by
  induction n using Nat.strong_induction_on with
  | _ n ih =>
    intro rest
    rw [encVarint]
    split
    case isTrue h => simp [decVarint, h]
    case isFalse h =>
      simp only [List.cons_append, decVarint, List.append_eq]
      rw [if_neg (by omega)]
      simp only [ih (n / 128) (Nat.div_lt_self (by omega) (by omega)),
        Option.some.injEq, Prod.mk.injEq, and_true]
      omega

theorem encVarint_lt (n : Nat) : ∀ b ∈ encVarint n, b < 256 := by
  induction n using Nat.strong_induction_on with
  | _ n ih =>
    rw [encVarint]
    split
    case isTrue h => simp; omega
    case isFalse h =>
      intro b hb
      rcases List.mem_cons.mp hb with rfl | hb
      · omega
      · exact ih (n / 128) (Nat.div_lt_self (by omega) (by omega)) b hb

theorem encVarint_ne_nil (n : Nat) : encVarint n ≠ [] := by
  rw [encVarint]; split <;> simp

theorem decChar_encChar (c : Char) :
    ∀ rest, decChar (encChar c ++ rest) = some (c, rest) := by
  intro rest
  simp [encChar, decChar, decVarint_encVarint, Char.ofNat_toNat]

theorem decListAux_encs {α : Type} (dec : List Nat → Option (α × List Nat))
    (enc : α → List Nat) (xs : List α)
    (hx : ∀ x ∈ xs, ∀ rest, dec (enc x ++ rest) = some (x, rest)) :
    ∀ rest, decListAux dec xs.length ((xs.map enc).flatten ++ rest) =
      some (xs, rest) := by
  induction xs with
  | nil => intro rest; simp [decListAux]
  | cons x xs ih =>
    intro rest
    simp only [List.map_cons, List.flatten_cons, List.length_cons,
      List.append_assoc, decListAux, List.append_eq,
      hx x (List.mem_cons_self x xs),
      ih (fun y hy => hx y (List.mem_cons_of_mem x hy))]

theorem decList_encList {α : Type} (dec : List Nat → Option (α × List Nat))
    (enc : α → List Nat) (xs : List α)
    (hx : ∀ x ∈ xs, ∀ rest, dec (enc x ++ rest) = some (x, rest)) :
    ∀ rest, decList dec (encList enc xs ++ rest) = some (xs, rest) := by
  intro rest
  unfold encList decList
  rw [List.append_assoc, decVarint_encVarint]
  exact decListAux_encs dec enc xs hx rest

theorem string_mk_toList (s : String) : String.mk s.toList = s := rfl

theorem decString_encString (s : String) :
    ∀ rest, decString (encString s ++ rest) = some (s, rest) := by
  intro rest
  unfold encString decString
  simp only [decList_encList decChar encChar s.toList
    (fun c _ => decChar_encChar c)]
  rfl

theorem decQuestion_encQuestion (q : Question) :
    ∀ rest, decQuestion (encQuestion q ++ rest) = some (q, rest) := by
  intro rest
  unfold encQuestion decQuestion
  simp only [List.append_assoc, decString_encString, decVarint_encVarint]

theorem decRR_encRR (rr : RR) :
    ∀ rest, decRR (encRR rr ++ rest) = some (rr, rest) := by
  intro rest
  unfold encRR decRR
  simp only [List.append_assoc, decVarint_encVarint]

theorem msgUnpackBytes_msgPackBytes (m : Msg) :
    msgUnpackBytes (msgPackBytes m) = some m := by
  unfold msgPackBytes msgUnpackBytes
  rw [show encList encRR m.Extra = encList encRR m.Extra ++ [] from
    (List.append_nil _).symm]
  simp only [List.append_assoc, decVarint_encVarint,
    decList_encList decQuestion encQuestion m.Question
      (fun q _ => decQuestion_encQuestion q),
    decList_encList decRR encRR m.Answer (fun rr _ => decRR_encRR rr),
    decList_encList decRR encRR m.Ns (fun rr _ => decRR_encRR rr),
    decList_encList decRR encRR m.Extra (fun rr _ => decRR_encRR rr)]

theorem encList_lt {α : Type} (enc : α → List Nat) (xs : List α)
    (hx : ∀ x ∈ xs, ∀ b ∈ enc x, b < 256) :
    ∀ b ∈ encList enc xs, b < 256 := by
  intro b hb
  unfold encList at hb
  rcases List.mem_append.mp hb with hb | hb
  · exact encVarint_lt _ b hb
  · obtain ⟨l, hl, hbl⟩ := List.mem_flatten.mp hb
    obtain ⟨x, hxm, rfl⟩ := List.mem_map.mp hl
    exact hx x hxm b hbl

theorem encQuestion_lt (q : Question) : ∀ b ∈ encQuestion q, b < 256 := by
  intro b hb
  unfold encQuestion at hb
  rcases List.mem_append.mp hb with hb | hb
  · rcases List.mem_append.mp hb with hb | hb
    · exact encList_lt encChar q.Name.toList
        (fun c _ => encVarint_lt c.toNat) b hb
    · exact encVarint_lt _ b hb
  · exact encVarint_lt _ b hb

theorem encRR_lt (rr : RR) : ∀ b ∈ encRR rr, b < 256 := by
  intro b hb
  unfold encRR at hb
  rcases List.mem_append.mp hb with hb | hb
  · exact encVarint_lt _ b hb
  · exact encVarint_lt _ b hb

theorem msgPackBytes_lt (m : Msg) : ∀ b ∈ msgPackBytes m, b < 256 := by
  intro b hb
  unfold msgPackBytes at hb
  rcases List.mem_append.mp hb with hb | hb
  · rcases List.mem_append.mp hb with hb | hb
    · rcases List.mem_append.mp hb with hb | hb
      · rcases List.mem_append.mp hb with hb | hb
        · exact encVarint_lt _ b hb
        · exact encList_lt _ _ (fun q _ => encQuestion_lt q) b hb
      · exact encList_lt _ _ (fun rr _ => encRR_lt rr) b hb
    · exact encList_lt _ _ (fun rr _ => encRR_lt rr) b hb
  · exact encList_lt _ _ (fun rr _ => encRR_lt rr) b hb

theorem msgPackBytes_ne_nil (m : Msg) : msgPackBytes m ≠ [] := by
  unfold msgPackBytes
  intro h
  rcases List.append_eq_nil.mp h with ⟨h1, _⟩
  rcases List.append_eq_nil.mp h1 with ⟨h2, _⟩
  rcases List.append_eq_nil.mp h2 with ⟨h3, _⟩
  rcases List.append_eq_nil.mp h3 with ⟨h4, _⟩
  exact encVarint_ne_nil _ h4

/-! ### Lemmas: fields of a packed line -/

theorem fieldsAux_nospace (w : List Char)
    (hw : ∀ c ∈ w, isSpaceChar c = false) :
    ∀ cs acc, fieldsAux (w ++ cs) acc = fieldsAux cs (w.reverse ++ acc) := by
  induction w with
  | nil => intro cs acc; simp
  | cons c w ih =>
    intro cs acc
    have hc : isSpaceChar c = false := hw c (List.mem_cons_self c w)
    simp only [List.cons_append, fieldsAux, hc, Bool.false_eq_true,
      if_false, List.append_eq]
    rw [ih (fun x hx => hw x (List.mem_cons_of_mem c hx)) cs (c :: acc)]
    simp [List.append_assoc]

theorem fields_word_cons (w : List Char)
    (hw : ∀ c ∈ w, isSpaceChar c = false) (hne : w ≠ [])
    (rest : List Char) :
    fields (w ++ ' ' :: rest) = w :: fields rest := by
  unfold fields
  rw [fieldsAux_nospace w hw (' ' :: rest) []]
  have hrev : w.reverse.isEmpty = false := by
    simp [List.isEmpty_iff, hne]
  simp only [List.append_nil, fieldsAux, show isSpaceChar ' ' = true from rfl,
    if_true, hrev, Bool.false_eq_true, if_false, List.reverse_reverse]

theorem fields_word_last (w : List Char)
    (hw : ∀ c ∈ w, isSpaceChar c = false) (hne : w ≠ []) :
    fields w = [w] := by
  unfold fields
  have h := fieldsAux_nospace w hw [] []
  rw [List.append_nil] at h
  rw [h]
  simp [fieldsAux, List.isEmpty_iff, hne]

theorem natToDec_nospace (n : Nat) :
    ∀ c ∈ natToDec n, isSpaceChar c = false := by
  intro c hc
  obtain ⟨d, hd, rfl⟩ := natToDec_mem n c hc
  exact isSpaceChar_digitChar (by omega)

theorem pack_toList (v : Value) :
    (Value.Pack v).toList =
      natToDec v.Key ++ ' ' :: (intToDec (unixSecs v.CreatedAt) ++
        ' ' :: hexEncode (msgPackBytes v.msg)) := by
  show natToDec v.Key ++ ' ' :: intToDec (unixSecs v.CreatedAt) ++
      ' ' :: hexEncode (msgPackBytes v.msg) = _
  simp [List.append_assoc]

theorem fields_pack (v : Value) :
    fields (Value.Pack v).toList =
      [natToDec v.Key, intToDec (unixSecs v.CreatedAt),
        hexEncode (msgPackBytes v.msg)] := by
  rw [pack_toList,
    fields_word_cons _ (natToDec_nospace _) (natToDec_ne_nil _),
    fields_word_cons _ (intToDec_mem _) (intToDec_ne_nil _),
    fields_word_last _ (hexEncode_mem _ (msgPackBytes_lt _))
      (hexEncode_ne_nil _ (msgPackBytes_ne_nil _))]

theorem fields_pack_extra (v : Value) :
    fields (Value.Pack v ++ " 0").toList =
      [natToDec v.Key, intToDec (unixSecs v.CreatedAt),
        hexEncode (msgPackBytes v.msg), ['0']] := by
  have htl : (Value.Pack v ++ " 0").toList =
      natToDec v.Key ++ ' ' :: (intToDec (unixSecs v.CreatedAt) ++
        ' ' :: (hexEncode (msgPackBytes v.msg) ++ ' ' :: ['0'])) := by
    show (Value.Pack v).toList ++ [' ', '0'] = _
    rw [pack_toList]
    simp [List.append_assoc]
  rw [htl,
    fields_word_cons _ (natToDec_nospace _) (natToDec_ne_nil _),
    fields_word_cons _ (intToDec_mem _) (intToDec_ne_nil _),
    fields_word_cons _ (hexEncode_mem _ (msgPackBytes_lt _))
      (hexEncode_ne_nil _ (msgPackBytes_ne_nil _)),
    fields_word_last _ (by intro c hc; simp at hc; subst hc; decide)
      (by simp)]

theorem unpack_fields_eval (v : Value) (hkey : v.Key < 2 ^ 32)
    (hlo : -(2 ^ 63) ≤ unixSecs v.CreatedAt)
    (hhi : unixSecs v.CreatedAt < 2 ^ 63) (tail : List (List Char))
    (s : String)
    (hf : fields s.toList =
      natToDec v.Key :: intToDec (unixSecs v.CreatedAt) ::
        hexEncode (msgPackBytes v.msg) :: tail) :
    Unpack s =
      some (Value.mk v.Key (timeUnix (unixSecs v.CreatedAt)) v.msg) := by
  unfold Unpack
  simp only [hf, parseUint32_natToDec hkey, parseInt64_intToDec hlo hhi,
    hexDecode_hexEncode _ (msgPackBytes_lt _), msgUnpackBytes_msgPackBytes]

/-! ### Claims -/

/-- C6: for every cacheable value (within its Go-type bounds), Unpack
inverts Value.Pack up to truncation of the creation instant to whole
seconds; Unpack gives the same result with an extra field appended
beyond the third, and it rejects every line with fewer than three
whitespace-separated fields. -/
theorem claim6_pack_unpack (v : Value) (hkey : v.Key < 2 ^ 32)
    (hcc : canCache v.msg = true)
    (hlo : -(2 ^ 63) ≤ unixSecs v.CreatedAt)
    (hhi : unixSecs v.CreatedAt < 2 ^ 63) :
    Unpack (Value.Pack v) =
        some (Value.mk v.Key (timeUnix (unixSecs v.CreatedAt)) v.msg) ∧
      Unpack (Value.Pack v ++ " 0") =
        some (Value.mk v.Key (timeUnix (unixSecs v.CreatedAt)) v.msg) ∧
      ∀ s : String, (fields s.toList).length < 3 → Unpack s = none := by
  refine ⟨?_, ?_, ?_⟩
  · exact unpack_fields_eval v hkey hlo hhi [] _ (by rw [fields_pack])
  · exact unpack_fields_eval v hkey hlo hhi [['0']] _
      (by rw [fields_pack_extra])
  · intro s hlen
    unfold Unpack
    split
    · rename_i f0 f1 f2 tail heq
      rw [heq] at hlen
      simp only [List.length_cons] at hlen
      omega
    · rfl

/-- Witness for C6 at a concrete cacheable value. -/
theorem claim6_pack_unpack_witness :
    Unpack (Value.Pack (Value.mk 1 0 msgEx)) =
        some (Value.mk 1 (timeUnix (unixSecs 0)) msgEx) ∧
      Unpack (Value.Pack (Value.mk 1 0 msgEx) ++ " 0") =
        some (Value.mk 1 (timeUnix (unixSecs 0)) msgEx) ∧
      ∀ s : String, (fields s.toList).length < 3 → Unpack s = none :=
  claim6_pack_unpack (Value.mk 1 0 msgEx) (by decide) (by decide)
    (by decide) (by decide)

/-- C10: Unpack accepts the packed form of a value whose message has an
empty question section, yet the first-question accessors index
Question[0] unconditionally, so on this accepted input they are out of
range (none in the embedding): their safety needs the unstated
precondition that the stored message has at least one question. -/
theorem claim10_empty_question_accessors :
    Unpack (Value.Pack noQuestionValue) = some noQuestionValue ∧
      noQuestionValue.msg.Question = [] ∧
      Value.Question noQuestionValue = none ∧
      Value.Qtype noQuestionValue = none := by
  refine ⟨?_, rfl, rfl, rfl⟩
  have h := unpack_fields_eval noQuestionValue (by decide) (by decide)
    (by decide) [] _ (fields_pack _)
  rw [h]
  decide

/-- C5: a non-cacheable message, one whose minimum TTL over answer,
authority and non-OPT additional sections is zero or whose rcode is
neither NOERROR nor NXDOMAIN, is silently dropped: Set leaves the whole
cache state unchanged (values, keys, trace) and the internal insert
reports false. -/
theorem claim5_noncacheable_set_noop (c : Cache) (now : Int) (key : Nat)
    (m : Msg)
    (h : minTTLSecs m = 0 ∨
      (m.Rcode ≠ RcodeSuccess ∧ m.Rcode ≠ RcodeNameError)) :
    c.SetMsg now key m = c ∧ c.set now key m = (false, c) := by
  have hcc : canCache m = false := by
    unfold canCache MinTTL
    rcases h with h | h
    · rw [if_pos (by omega)]
    · by_cases hm : minTTLSecs m * 1000000000 = 0
      · rw [if_pos hm]
      · rw [if_neg hm]
        have h1 : (m.Rcode == RcodeSuccess) = false := by
          simp [beq_iff_eq, h.1]
        have h2 : (m.Rcode == RcodeNameError) = false := by
          simp [beq_iff_eq, h.2]
        rw [h1, h2]
        rfl
  have hset : c.set now key m = (false, c) := by
    simp [Cache.set, Cache.setValue, hcc]
  exact ⟨by unfold Cache.SetMsg; rw [hset], hset⟩

/-- Witness for C5: a TTL-zero message is dropped on a concrete cache. -/
theorem claim5_noncacheable_set_noop_witness :
    (newCache 2 false []).SetMsg 0 5 msgZeroTTL = newCache 2 false [] ∧
      (newCache 2 false []).set 0 5 msgZeroTTL =
        (false, newCache 2 false []) :=
  claim5_noncacheable_set_noop (newCache 2 false []) 0 5 msgZeroTTL
    (Or.inl (by decide))

/-- C9: when a background refresh obtains a reply that is non-cacheable,
the refreshed entry is evicted, removed from the value map and the
insertion log with an eviction forwarded to the attached backend, rather
than left in place. -/
theorem claim9_refresh_noncacheable_evicts (c : Cache) (now : Int)
    (key : Nat) (r : Msg) (h : canCache r = false) :
    Cache.refresh c now key (some r) = c.evict key ∧
      (c.evict key).values = mapErase c.values key ∧
      (c.evict key).keys = removeKey c.keys key ∧
      (c.attached = true →
        (c.evict key).calls = c.calls ++ [BackendCall.evict key]) := by
  refine ⟨?_, ?_, ?_, ?_⟩
  · have hset : c.set now key r = (false, c) := by
      simp [Cache.set, Cache.setValue, h]
    unfold Cache.refresh
    simp only [hset]
  · unfold Cache.evict backendCall
    split <;> rfl
  · unfold Cache.evict backendCall
    split <;> rfl
  · intro hatt
    unfold Cache.evict backendCall
    rw [if_pos (by exact hatt)]

/-- Witness for C9 at a concrete one-entry cache and a SERVFAIL reply. -/
theorem claim9_refresh_noncacheable_evicts_witness :
    Cache.refresh (newCache 2 false [Value.mk 1 0 msgEx]) 9 1
          (some msgServFail) =
        (newCache 2 false [Value.mk 1 0 msgEx]).evict 1 ∧
      ((newCache 2 false [Value.mk 1 0 msgEx]).evict 1).values =
        mapErase (newCache 2 false [Value.mk 1 0 msgEx]).values 1 ∧
      ((newCache 2 false [Value.mk 1 0 msgEx]).evict 1).keys =
        removeKey (newCache 2 false [Value.mk 1 0 msgEx]).keys 1 ∧
      ((newCache 2 false [Value.mk 1 0 msgEx]).attached = true →
        ((newCache 2 false [Value.mk 1 0 msgEx]).evict 1).calls =
          (newCache 2 false [Value.mk 1 0 msgEx]).calls ++
            [BackendCall.evict 1]) :=
  claim9_refresh_noncacheable_evicts (newCache 2 false [Value.mk 1 0 msgEx])
    9 1 msgServFail (by decide)

/-- C8: a negative capacity behaves exactly as capacity zero: the
constructor clamps it to zero, the resulting cache is the one built with
capacity zero, the supplied backend receives only the construction-time
reset and is never attached, and an insert on any capacity-zero cache is
refused with no state change. -/
theorem claim8_negative_capacity (capacity : Int) (hneg : capacity < 0)
    (cl : Bool) (persisted : List Value) :
    newCache capacity cl persisted = newCache 0 cl persisted ∧
      (newCache capacity cl persisted).capacity = 0 ∧
      (newCache capacity cl persisted).calls = [BackendCall.reset] ∧
      (newCache capacity cl persisted).attached = false ∧
      ∀ c : Cache, c.capacity = 0 → ∀ now key m,
        c.set now key m = (false, c) := by
  have h0 : capacity.toNat = 0 := by omega
  have heq : newCache capacity cl persisted = newCache 0 cl persisted := by
    unfold newCache
    rw [h0]
    rfl
  have hload : newCache 0 cl persisted =
      Cache.mk 0 [] [] cl false [BackendCall.reset] [] := by
    unfold newCache Cache.load
    rfl
  refine ⟨heq, ?_, ?_, ?_, ?_⟩
  · rw [heq, hload]
  · rw [heq, hload]
  · rw [heq, hload]
  · intro c hcap now key m
    have hb : (c.capacity == 0) = true := by simp [beq_iff_eq, hcap]
    simp [Cache.set, Cache.setValue, hb]

/-- Witness for C8 at capacity -1 over the sample persisted sequence. -/
theorem claim8_negative_capacity_witness :
    newCache (-1) false loadSeq = newCache 0 false loadSeq ∧
      (newCache (-1) false loadSeq).capacity = 0 ∧
      (newCache (-1) false loadSeq).calls = [BackendCall.reset] ∧
      (newCache (-1) false loadSeq).attached = false ∧
      ∀ c : Cache, c.capacity = 0 → ∀ now key m,
        c.set now key m = (false, c) :=
  claim8_negative_capacity (-1) (by decide) false loadSeq

/-- C3: a present entry is treated as expired exactly when the lookup
instant is strictly past its creation instant plus the minimum TTL of
its message; with no resolver client configured an expired present entry
yields a miss and enqueues a background eviction of that key, while a
present non-expired entry is returned as a hit. -/
theorem claim3_expiry_get (c : Cache) (now : Int) (key : Nat) (v : Value)
    (hv : mapGet c.values key = some v) (hcl : c.client = false) :
    (isExpired now v = true ↔
        v.CreatedAt + (MinTTL v.msg : Int) < now) ∧
      (v.CreatedAt + (MinTTL v.msg : Int) < now →
        c.Get now key =
          (none, { c with queue := c.queue ++ [BgOp.evictOp key] })) ∧
      (¬ v.CreatedAt + (MinTTL v.msg : Int) < now →
        c.Get now key = (some v.msg, c)) := by
  refine ⟨by simp [isExpired], ?_, ?_⟩
  · intro hx
    have hb : isExpired now v = true := decide_eq_true hx
    simp [Cache.Get, Cache.getValue, hv, hb, hcl]
  · intro hx
    have hb : isExpired now v = false := decide_eq_false hx
    simp [Cache.Get, Cache.getValue, hv, hb]

/-- Witness for C3 on a concrete one-entry cache, prefetch disabled. -/
theorem claim3_expiry_get_witness :
    (isExpired 5 (Value.mk 1 0 msgEx) = true ↔
        (Value.mk 1 0 msgEx).CreatedAt +
          (MinTTL (Value.mk 1 0 msgEx).msg : Int) < 5) ∧
      ((Value.mk 1 0 msgEx).CreatedAt +
          (MinTTL (Value.mk 1 0 msgEx).msg : Int) < 5 →
        (Cache.mk 2 [(1, Value.mk 1 0 msgEx)] [1] false true [] []).Get 5 1 =
          (none, { Cache.mk 2 [(1, Value.mk 1 0 msgEx)] [1] false true [] []
            with queue := [] ++ [BgOp.evictOp 1] })) ∧
      (¬ (Value.mk 1 0 msgEx).CreatedAt +
          (MinTTL (Value.mk 1 0 msgEx).msg : Int) < 5 →
        (Cache.mk 2 [(1, Value.mk 1 0 msgEx)] [1] false true [] []).Get 5 1 =
          (some (Value.mk 1 0 msgEx).msg,
            Cache.mk 2 [(1, Value.mk 1 0 msgEx)] [1] false true [] [])) :=
  claim3_expiry_get
    (Cache.mk 2 [(1, Value.mk 1 0 msgEx)] [1] false true [] [])
    5 1 (Value.mk 1 0 msgEx) (by decide) rfl

/-- C1 counterexample: on a fresh capacity-2 cache, after set(1), set(2),
set(3) with distinct cacheable messages the backend trace is not
set(1), set(2), set(3), evict(1): the eviction call is issued before the
overflowing set, not after it. -/
theorem claim1_counterexample :
    ¬ ((((newCache 2 false []).SetMsg 0 1 msgEx).SetMsg 0 2 msgEx).SetMsg
          0 3 msgEx).calls =
        [BackendCall.set 1 (Value.mk 1 0 msgEx),
         BackendCall.set 2 (Value.mk 2 0 msgEx),
         BackendCall.set 3 (Value.mk 3 0 msgEx),
         BackendCall.evict 1] := by
  decide

/-- C1 (amended): on a fresh capacity-2 cache, after set(k1), set(k2),
set(k3) with pairwise distinct keys and cacheable messages, memory holds
exactly k2 and k3 and the backend received set(k1), set(k2), evict(k1),
set(k3) in exactly that order: within the overflowing insert the
eviction is forwarded before the set. -/
theorem claim1_fifo_backend_trace (cl : Bool) (k1 k2 k3 : Nat)
    (m1 m2 m3 : Msg) (t1 t2 t3 : Int)
    (h12 : k1 ≠ k2) (h13 : k1 ≠ k3) (h23 : k2 ≠ k3)
    (hc1 : canCache m1 = true) (hc2 : canCache m2 = true)
    (hc3 : canCache m3 = true) :
    (((newCache 2 cl []).SetMsg t1 k1 m1).SetMsg t2 k2 m2).SetMsg t3 k3 m3 =
      Cache.mk 2 [(k2, Value.mk k2 t2 m2), (k3, Value.mk k3 t3 m3)]
        [k2, k3] cl true
        [BackendCall.set k1 (Value.mk k1 t1 m1),
         BackendCall.set k2 (Value.mk k2 t2 m2),
         BackendCall.evict k1,
         BackendCall.set k3 (Value.mk k3 t3 m3)] [] := by
  have hb12 : (k1 != k2) = true := bne_iff_ne.mpr h12
  have hb21 : (k2 != k1) = true := bne_iff_ne.mpr (Ne.symm h12)
  have hb13 : (k1 != k3) = true := bne_iff_ne.mpr h13
  have hb23 : (k2 != k3) = true := bne_iff_ne.mpr h23
  have e0 : newCache 2 cl [] = Cache.mk 2 [] [] cl true [] [] := rfl
  have e1 : (Cache.mk 2 [] [] cl true [] []).SetMsg t1 k1 m1 =
      Cache.mk 2 [(k1, Value.mk k1 t1 m1)] [k1] cl true
        [BackendCall.set k1 (Value.mk k1 t1 m1)] [] := by
    simp [Cache.SetMsg, Cache.set, Cache.setValue, hc1, mapInsert,
      mapErase, removeKey, backendCall]
  have e2 : (Cache.mk 2 [(k1, Value.mk k1 t1 m1)] [k1] cl true
        [BackendCall.set k1 (Value.mk k1 t1 m1)] []).SetMsg t2 k2 m2 =
      Cache.mk 2 [(k1, Value.mk k1 t1 m1), (k2, Value.mk k2 t2 m2)]
        [k1, k2] cl true
        [BackendCall.set k1 (Value.mk k1 t1 m1),
         BackendCall.set k2 (Value.mk k2 t2 m2)] [] := by
    simp [Cache.SetMsg, Cache.set, Cache.setValue, hc2, mapInsert,
      mapErase, removeKey, backendCall, hb12]
  have e3 : (Cache.mk 2 [(k1, Value.mk k1 t1 m1), (k2, Value.mk k2 t2 m2)]
        [k1, k2] cl true
        [BackendCall.set k1 (Value.mk k1 t1 m1),
         BackendCall.set k2 (Value.mk k2 t2 m2)] []).SetMsg t3 k3 m3 =
      Cache.mk 2 [(k2, Value.mk k2 t2 m2), (k3, Value.mk k3 t3 m3)]
        [k2, k3] cl true
        [BackendCall.set k1 (Value.mk k1 t1 m1),
         BackendCall.set k2 (Value.mk k2 t2 m2),
         BackendCall.evict k1,
         BackendCall.set k3 (Value.mk k3 t3 m3)] [] := by
    simp [Cache.SetMsg, Cache.set, Cache.setValue, hc3, mapInsert,
      mapErase, removeKey, backendCall, hb21, hb23, hb13]
  rw [e0, e1, e2, e3]

/-- Witness for the amended C1 at keys 1, 2, 3. -/
theorem claim1_fifo_backend_trace_witness :
    (((newCache 2 false []).SetMsg 0 1 msgEx).SetMsg 0 2 msgEx).SetMsg
        0 3 msgEx =
      Cache.mk 2 [(2, Value.mk 2 0 msgEx), (3, Value.mk 3 0 msgEx)]
        [2, 3] false true
        [BackendCall.set 1 (Value.mk 1 0 msgEx),
         BackendCall.set 2 (Value.mk 2 0 msgEx),
         BackendCall.evict 1,
         BackendCall.set 3 (Value.mk 3 0 msgEx)] [] :=
  claim1_fifo_backend_trace false 1 2 3 msgEx msgEx msgEx 0 0 0
    (by decide) (by decide) (by decide) (by decide) (by decide) (by decide)

/-- C2: evaluation of construction from the persisted sequence v1..v5
(oldest first, capacity 3). The code slices values[n:] with n equal to
the capacity, so it loads only the newest two entries v4, v5 and calls
backend evict for the oldest three v1, v2, v3; v3 is dropped from memory
and from the backend, and list(3) returns only [v5, v4]. The claim (and
the spec, which flags this slicing as inverted) requires loading v3, v4,
v5, evicting exactly v1, v2, and list(3) = [v5, v4, v3]. -/
theorem claim2_load_slice_eval :
    (newCache 3 false loadSeq).values =
        [(4, Value.mk 4 0 msgEx), (5, Value.mk 5 0 msgEx)] ∧
      (newCache 3 false loadSeq).keys = [4, 5] ∧
      (newCache 3 false loadSeq).calls =
        [BackendCall.evict 1, BackendCall.evict 2, BackendCall.evict 3] ∧
      (newCache 3 false loadSeq).ListVals 3 =
        [Value.mk 5 0 msgEx, Value.mk 4 0 msgEx] := by
  decide

/-- C7: in Hosts mode, a hijacked A or AAAA request whose stripped name
is configured is answered by partitioning the configured addresses by
family: an A query is answered with exactly the IPv4 entries and an AAAA
query with exactly the IPv6 entries (each answer record carrying the
queried type, drawn from the configured list, in configuration order),
and an empty partition yields a reply with an empty answer section. -/
theorem claim7_hosts_partition (s : Server) (r : Request)
    (ips : List IPAddr) (hmode : s.hijackMode = HijackHosts)
    (hget : hostsGet s.hosts (nonFqdn r.Name) = some ips) :
    (r.Typ = TypeA →
      s.hijack r =
          some (ReplyA r.Name (ips.filter (fun ip => ip.isIPv4))) ∧
        (∀ p, p ∈ (ReplyA r.Name (ips.filter (fun ip => ip.isIPv4))).answers
          ↔ p.1 = TypeA ∧ p.2 ∈ ips ∧ p.2.isIPv4 = true) ∧
        (ips.filter (fun ip => ip.isIPv4) = [] →
          (ReplyA r.Name (ips.filter (fun ip => ip.isIPv4))).answers =
            [])) ∧
    (r.Typ = TypeAAAA →
      s.hijack r =
          some (ReplyAAAA r.Name (ips.filter (fun ip => !ip.isIPv4))) ∧
        (∀ p,
          p ∈ (ReplyAAAA r.Name (ips.filter (fun ip => !ip.isIPv4))).answers
          ↔ p.1 = TypeAAAA ∧ p.2 ∈ ips ∧ p.2.isIPv4 = false) ∧
        (ips.filter (fun ip => !ip.isIPv4) = [] →
          (ReplyAAAA r.Name (ips.filter (fun ip => !ip.isIPv4))).answers =
            [])) := by
  constructor
  · intro hty
    refine ⟨?_, ?_, ?_⟩
    · simp [Server.hijack, hty, hget, hmode, HijackHosts, HijackZero,
        HijackEmpty, TypeA, TypeAAAA]
    · intro p
      constructor
      · intro hp
        simp only [ReplyA, List.mem_map, List.mem_filter] at hp
        obtain ⟨ip, ⟨hmem, hf⟩, rfl⟩ := hp
        exact ⟨rfl, hmem, hf⟩
      · rintro ⟨h1, h2, h3⟩
        simp only [ReplyA, List.mem_map, List.mem_filter]
        exact ⟨p.2, ⟨h2, h3⟩, by rw [← h1]⟩
    · intro hf
      simp [ReplyA, hf]
  · intro hty
    refine ⟨?_, ?_, ?_⟩
    · simp [Server.hijack, hty, hget, hmode, HijackHosts, HijackZero,
        HijackEmpty, TypeA, TypeAAAA]
    · intro p
      constructor
      · intro hp
        simp only [ReplyAAAA, List.mem_map, List.mem_filter] at hp
        obtain ⟨ip, ⟨hmem, hf⟩, rfl⟩ := hp
        exact ⟨rfl, hmem, by simpa using hf⟩
      · rintro ⟨h1, h2, h3⟩
        simp only [ReplyAAAA, List.mem_map, List.mem_filter]
        exact ⟨p.2, ⟨h2, by simpa using h3⟩, by rw [← h1]⟩
    · intro hf
      simp [ReplyAAAA, hf]

/-- Witness for C7: two IPv4 hosts entries and one IPv6 entry, queried
with A and with AAAA. -/
theorem claim7_hosts_partition_witness :
    ((Request.mk "ads.example." 1).Typ = TypeA →
      (Server.mk [("ads.example",
          [IPAddr.mk true "1.2.3.4", IPAddr.mk false "::1"])] 2).hijack
          (Request.mk "ads.example." 1) =
          some (ReplyA (Request.mk "ads.example." 1).Name
            ([IPAddr.mk true "1.2.3.4", IPAddr.mk false "::1"].filter
              (fun ip => ip.isIPv4))) ∧
        (∀ p, p ∈ (ReplyA (Request.mk "ads.example." 1).Name
            ([IPAddr.mk true "1.2.3.4", IPAddr.mk false "::1"].filter
              (fun ip => ip.isIPv4))).answers
          ↔ p.1 = TypeA ∧
            p.2 ∈ [IPAddr.mk true "1.2.3.4", IPAddr.mk false "::1"] ∧
            p.2.isIPv4 = true) ∧
        ([IPAddr.mk true "1.2.3.4", IPAddr.mk false "::1"].filter
            (fun ip => ip.isIPv4) = [] →
          (ReplyA (Request.mk "ads.example." 1).Name
            ([IPAddr.mk true "1.2.3.4", IPAddr.mk false "::1"].filter
              (fun ip => ip.isIPv4))).answers = [])) ∧
    ((Request.mk "ads.example." 1).Typ = TypeAAAA →
      (Server.mk [("ads.example",
          [IPAddr.mk true "1.2.3.4", IPAddr.mk false "::1"])] 2).hijack
          (Request.mk "ads.example." 1) =
          some (ReplyAAAA (Request.mk "ads.example." 1).Name
            ([IPAddr.mk true "1.2.3.4", IPAddr.mk false "::1"].filter
              (fun ip => !ip.isIPv4))) ∧
        (∀ p, p ∈ (ReplyAAAA (Request.mk "ads.example." 1).Name
            ([IPAddr.mk true "1.2.3.4", IPAddr.mk false "::1"].filter
              (fun ip => !ip.isIPv4))).answers
          ↔ p.1 = TypeAAAA ∧
            p.2 ∈ [IPAddr.mk true "1.2.3.4", IPAddr.mk false "::1"] ∧
            p.2.isIPv4 = false) ∧
        ([IPAddr.mk true "1.2.3.4", IPAddr.mk false "::1"].filter
            (fun ip => !ip.isIPv4) = [] →
          (ReplyAAAA (Request.mk "ads.example." 1).Name
            ([IPAddr.mk true "1.2.3.4", IPAddr.mk false "::1"].filter
              (fun ip => !ip.isIPv4))).answers = [])) :=
  claim7_hosts_partition
    (Server.mk [("ads.example",
      [IPAddr.mk true "1.2.3.4", IPAddr.mk false "::1"])] 2)
    (Request.mk "ads.example." 1)
    [IPAddr.mk true "1.2.3.4", IPAddr.mk false "::1"]
    (by decide) (by decide)

/-! ### Lemmas: cache state under a run of distinct inserts -/

theorem mapGet_none (m : List (Nat × Value)) (key : Nat)
    (h : ∀ p ∈ m, p.1 ≠ key) : mapGet m key = none := by
  induction m with
  | nil => rfl
  | cons p rest ih =>
    unfold mapGet
    rw [if_neg (h p (List.mem_cons_self p rest))]
    exact ih (fun q hq => h q (List.mem_cons_of_mem p hq))

theorem mapGet_mem (m : List (Nat × Value)) (key : Nat) (v : Value)
    (hnd : (m.map Prod.fst).Nodup) (hmem : (key, v) ∈ m) :
    mapGet m key = some v := by
  induction m with
  | nil => cases hmem
  | cons p rest ih =>
    rw [List.map_cons, List.nodup_cons] at hnd
    rcases List.mem_cons.mp hmem with rfl | hmem2
    · unfold mapGet
      rw [if_pos rfl]
    · unfold mapGet
      have hk : key ∈ rest.map Prod.fst :=
        List.mem_map.mpr ⟨(key, v), hmem2, rfl⟩
      rw [if_neg (fun he : p.1 = key => hnd.1 (by rw [he]; exact hk))]
      exact ih hnd.2 hmem2

theorem mapErase_not_mem (m : List (Nat × Value)) (key : Nat)
    (h : ∀ p ∈ m, p.1 ≠ key) : mapErase m key = m :=
  List.filter_eq_self.mpr (fun p hp => bne_iff_ne.mpr (h p hp))

theorem mapErase_head (k : Nat) (v : Value) (m : List (Nat × Value))
    (h : ∀ p ∈ m, p.1 ≠ k) : mapErase ((k, v) :: m) k = m := by
  unfold mapErase
  rw [List.filter_cons_of_neg (by simp)]
  exact mapErase_not_mem m k h

theorem removeKey_not_mem (keys : List Nat) (key : Nat)
    (h : key ∉ keys) : removeKey keys key = keys :=
  List.filter_eq_self.mpr
    (fun k hk => bne_iff_ne.mpr (fun he => h (he ▸ hk)))

theorem backendCall_values (c : Cache) (call : BackendCall) :
    (backendCall c call).values = c.values := by
  unfold backendCall; split <;> rfl

theorem backendCall_keys (c : Cache) (call : BackendCall) :
    (backendCall c call).keys = c.keys := by
  unfold backendCall; split <;> rfl

theorem backendCall_capacity (c : Cache) (call : BackendCall) :
    (backendCall c call).capacity = c.capacity := by
  unfold backendCall; split <;> rfl

theorem backendCall_client (c : Cache) (call : BackendCall) :
    (backendCall c call).client = c.client := by
  unfold backendCall; split <;> rfl

theorem setValue_no_overflow (c : Cache) (v : Value)
    (hcc : canCache v.msg = true) (hcap : c.capacity ≠ 0)
    (hlen : c.values.length ≠ c.capacity) :
    (c.setValue v).2.values = mapInsert c.values v.Key v ∧
      (c.setValue v).2.keys = removeKey c.keys v.Key ++ [v.Key] ∧
      (c.setValue v).2.capacity = c.capacity ∧
      (c.setValue v).2.client = c.client := by
  have h1 : (c.capacity == 0 || !canCache v.msg) = false := by
    simp [hcap, hcc]
  have h2 : (c.values.length == c.capacity && c.capacity != 0) = false := by
    simp [hlen]
  unfold Cache.setValue
  simp only [h1, h2, Bool.false_eq_true, if_false, backendCall_values,
    backendCall_keys, backendCall_capacity, backendCall_client]
  refine ⟨?_, ?_, ?_, ?_⟩ <;> trivial

theorem setValue_overflow (c : Cache) (v : Value)
    (hcc : canCache v.msg = true) (hcap : c.capacity ≠ 0)
    (hlen : c.values.length = c.capacity) :
    (c.setValue v).2.values =
        mapInsert (mapErase c.values (c.keys.headD 0)) v.Key v ∧
      (c.setValue v).2.keys =
        removeKey c.keys.tail v.Key ++ [v.Key] ∧
      (c.setValue v).2.capacity = c.capacity ∧
      (c.setValue v).2.client = c.client := by
  have h1 : (c.capacity == 0 || !canCache v.msg) = false := by
    simp [hcap, hcc]
  have h2 : (c.values.length == c.capacity && c.capacity != 0) = true := by
    simp [hlen, hcap]
  unfold Cache.setValue
  simp only [h1, h2, Bool.false_eq_true, if_false, if_true,
    backendCall_values, backendCall_keys, backendCall_capacity,
    backendCall_client]
  refine ⟨?_, ?_, ?_, ?_⟩ <;> trivial

theorem newCache_empty (C : Nat) (hC : 0 < C) (cl : Bool) :
    newCache (C : Int) cl [] = Cache.mk C [] [] cl true [] [] := by
  unfold newCache Cache.load
  rw [Int.toNat_natCast]
  have h : C ≠ 0 := by omega
  simp [h]

theorem runSets_distinct_state (C : Nat) (hC : 0 < C) (cl : Bool)
    (ops : List (Int × Nat × Msg))
    (hnd : (ops.map (fun op => op.2.1)).Nodup)
    (hcc : ∀ op ∈ ops, canCache op.2.2 = true) :
    (runSets (newCache (C : Int) cl []) ops).values =
        (ops.drop (ops.length - C)).map
          (fun op => (op.2.1, Value.mk op.2.1 op.1 op.2.2)) ∧
      (runSets (newCache (C : Int) cl []) ops).keys =
        (ops.drop (ops.length - C)).map (fun op => op.2.1) ∧
      (runSets (newCache (C : Int) cl []) ops).capacity = C ∧
      (runSets (newCache (C : Int) cl []) ops).client = cl := by
  induction ops using List.reverseRecOn with
  | nil =>
    rw [newCache_empty C hC cl]
    simp [runSets]
  | append_singleton l a ih =>
    have hndl : (l.map (fun op => op.2.1)).Nodup := by
      rw [List.map_append, List.nodup_append] at hnd
      exact hnd.1
    have hka : ∀ op ∈ l, op.2.1 ≠ a.2.1 := by
      rw [List.map_append, List.nodup_append] at hnd
      intro op hop heq
      exact hnd.2.2 (List.mem_map.mpr ⟨op, hop, rfl⟩) (by simp [heq])
    have hccl : ∀ op ∈ l, canCache op.2.2 = true :=
      fun op hop => hcc op (List.mem_append.mpr (Or.inl hop))
    have hcca : canCache a.2.2 = true :=
      hcc a (List.mem_append.mpr (Or.inr (by simp)))
    obtain ⟨ihv, ihk, ihcap, ihcl⟩ := ih hndl hccl
    have hrun : runSets (newCache (C : Int) cl []) (l ++ [a]) =
        ((runSets (newCache (C : Int) cl []) l).setValue
          (Value.mk a.2.1 a.1 a.2.2)).2 := by
      simp [runSets, List.foldl_append, Cache.SetMsg, Cache.set]
    set S := runSets (newCache (C : Int) cl []) l with hS
    have hvlen : S.values.length = l.length - (l.length - C) := by
      rw [ihv, List.length_map, List.length_drop]
    by_cases hlt : l.length < C
    · have hd0 : l.length - C = 0 := by omega
      have hd0' : (l ++ [a]).length - C = 0 := by
        rw [List.length_append]
        simp only [List.length_singleton]
        omega
      have hne : S.values.length ≠ S.capacity := by
        rw [hvlen, ihcap]
        omega
      obtain ⟨hv, hk, hcap2, hcl2⟩ :=
        setValue_no_overflow S (Value.mk a.2.1 a.1 a.2.2) hcca
          (by rw [ihcap]; omega) hne
      rw [hrun]
      refine ⟨?_, ?_, by rw [hcap2, ihcap], by rw [hcl2, ihcl]⟩
      · rw [hv, ihv, hd0, hd0', List.drop_zero, List.drop_zero]
        unfold mapInsert
        rw [mapErase_not_mem _ _ ?hne2]
        · simp [List.map_append]
        case hne2 =>
          intro p hp
          obtain ⟨op, hop, rfl⟩ := List.mem_map.mp hp
          exact hka op hop
      · rw [hk, ihk, hd0, hd0', List.drop_zero, List.drop_zero]
        rw [removeKey_not_mem _ _ ?hka2]
        · simp [List.map_append]
        case hka2 =>
          intro hmem
          obtain ⟨op, hop, heq⟩ := List.mem_map.mp hmem
          exact hka op hop heq
    · have hge : C ≤ l.length := by omega
      have hlenC : S.values.length = S.capacity := by
        rw [hvlen, ihcap]
        omega
      obtain ⟨hv, hk, hcap2, hcl2⟩ :=
        setValue_overflow S (Value.mk a.2.1 a.1 a.2.2) hcca
          (by rw [ihcap]; omega) hlenC
      have hDlen : (l.drop (l.length - C)).length = C := by
        rw [List.length_drop]
        omega
      obtain ⟨b, rest, hD⟩ :
          ∃ b rest, l.drop (l.length - C) = b :: rest := by
        cases hD : l.drop (l.length - C) with
        | nil => rw [hD] at hDlen; simp at hDlen; omega
        | cons b rest => exact ⟨b, rest, rfl⟩
      have hrestsub : ∀ op ∈ rest, op ∈ l := by
        intro op hop
        have : op ∈ l.drop (l.length - C) := by
          rw [hD]; exact List.mem_cons_of_mem b hop
        exact List.mem_of_mem_drop this
      have hbmem : b ∈ l := by
        have : b ∈ l.drop (l.length - C) := by
          rw [hD]; exact List.mem_cons_self b rest
        exact List.mem_of_mem_drop this
      have hDnodup : ((b :: rest).map (fun op => op.2.1)).Nodup := by
        rw [← hD, List.map_drop]
        exact List.Nodup.sublist (List.drop_sublist _ _) hndl
      have hbrest : ∀ op ∈ rest, op.2.1 ≠ b.2.1 := by
        rw [List.map_cons, List.nodup_cons] at hDnodup
        intro op hop heq
        exact hDnodup.1 (heq ▸ List.mem_map.mpr ⟨op, hop, rfl⟩)
      have hdropstep : (l ++ [a]).drop ((l ++ [a]).length - C) =
          rest ++ [a] := by
        have h1 : (l ++ [a]).length - C = (l.length - C) + 1 := by
          rw [List.length_append]
          simp only [List.length_singleton]
          omega
        rw [h1, List.drop_append_of_le_length (by omega)]
        have h2 : l.drop (l.length - C + 1) =
            (l.drop (l.length - C)).drop 1 := by
          rw [List.drop_drop]
        rw [h2, hD]
        rfl
      have hrestne : ∀ p ∈ rest.map
          (fun op => ((op.2.1 : Nat), Value.mk op.2.1 op.1 op.2.2)),
          p.1 ≠ b.2.1 := by
        intro p hp
        obtain ⟨op, hop, rfl⟩ := List.mem_map.mp hp
        exact hbrest op hop
      have hresta : ∀ op ∈ rest, op.2.1 ≠ a.2.1 :=
        fun op hop => hka op (hrestsub op hop)
      rw [hrun]
      refine ⟨?_, ?_, by rw [hcap2, ihcap], by rw [hcl2, ihcl]⟩
      · rw [hv, ihv, ihk, hD, hdropstep]
        simp only [List.map_cons, List.headD_cons]
        rw [mapErase_head _ _ _ hrestne]
        unfold mapInsert
        rw [mapErase_not_mem _ _ ?hne3]
        · simp [List.map_append]
        case hne3 =>
          intro p hp
          obtain ⟨op, hop, rfl⟩ := List.mem_map.mp hp
          exact hresta op hop
      · rw [hk, ihk, hD, hdropstep]
        simp only [List.map_cons, List.tail_cons]
        rw [removeKey_not_mem _ _ ?hka3]
        · simp [List.map_append]
        case hka3 =>
          intro hmem
          obtain ⟨op, hop, heq⟩ := List.mem_map.mp hmem
          exact hresta op hop heq

/-- C4: starting from an empty cache of capacity C > 0 and running C+1
Set calls with pairwise distinct keys and cacheable messages, observed
at an instant at which none of the inserted messages has expired: the
first-inserted key misses (the entry at the head of the insertion log
was the one evicted on overflow) and every later key still hits with its
stored message. -/
theorem claim4_fifo_overflow (C : Nat) (hC : 0 < C) (cl : Bool)
    (op1 : Int × Nat × Msg) (rest : List (Int × Nat × Msg)) (T : Int)
    (hlen : (op1 :: rest).length = C + 1)
    (hnd : ((op1 :: rest).map (fun op => op.2.1)).Nodup)
    (hcc : ∀ op ∈ op1 :: rest, canCache op.2.2 = true)
    (hfresh : ∀ op ∈ op1 :: rest, ¬ op.1 + (MinTTL op.2.2 : Int) < T) :
    ((runSets (newCache (C : Int) cl []) (op1 :: rest)).Get T op1.2.1).1 =
        none ∧
      ∀ op ∈ rest,
        ((runSets (newCache (C : Int) cl []) (op1 :: rest)).Get T
          op.2.1).1 = some op.2.2 := by
  obtain ⟨hv, hk, hcap, hcl⟩ :=
    runSets_distinct_state C hC cl (op1 :: rest) hnd hcc
  have hd1 : (op1 :: rest).length - C = 1 := by
    simp only [List.length_cons] at hlen ⊢
    omega
  rw [hd1] at hv
  simp only [List.drop_succ_cons, List.drop_zero] at hv
  rw [List.map_cons, List.nodup_cons] at hnd
  constructor
  · have hnone : mapGet
        (runSets (newCache (C : Int) cl []) (op1 :: rest)).values
        op1.2.1 = none := by
      rw [hv]
      apply mapGet_none
      intro p hp
      obtain ⟨op, hop, rfl⟩ := List.mem_map.mp hp
      intro heq
      exact hnd.1 (heq ▸ List.mem_map.mpr ⟨op, hop, rfl⟩)
    unfold Cache.Get Cache.getValue
    simp only [hnone]
  · intro op hop
    have hsome : mapGet
        (runSets (newCache (C : Int) cl []) (op1 :: rest)).values
        op.2.1 = some (Value.mk op.2.1 op.1 op.2.2) := by
      rw [hv]
      apply mapGet_mem
      · have hcomp : ((rest.map (fun op =>
            ((op.2.1 : Nat), Value.mk op.2.1 op.1 op.2.2))).map
              Prod.fst) = rest.map (fun op => op.2.1) := by
          rw [List.map_map]
          rfl
        rw [hcomp]
        exact hnd.2
      · exact List.mem_map.mpr ⟨op, hop, rfl⟩
    have hexp : isExpired T (Value.mk op.2.1 op.1 op.2.2) = false :=
      decide_eq_false (hfresh op (List.mem_cons_of_mem op1 hop))
    unfold Cache.Get Cache.getValue
    simp only [hsome, hexp, Bool.false_eq_true, if_false]

/-- Witness for C4 at capacity 2 with keys 1, 2, 3 observed at instant
5, well before the 300-second TTL. -/
theorem claim4_fifo_overflow_witness :
    ((runSets (newCache ((2 : Nat) : Int) false [])
          (((0 : Int), (1 : Nat), msgEx) ::
            [((0 : Int), (2 : Nat), msgEx),
             ((0 : Int), (3 : Nat), msgEx)])).Get 5
        ((0 : Int), (1 : Nat), msgEx).2.1).1 = none ∧
      ∀ op ∈ [((0 : Int), (2 : Nat), msgEx),
          ((0 : Int), (3 : Nat), msgEx)],
        ((runSets (newCache ((2 : Nat) : Int) false [])
            (((0 : Int), (1 : Nat), msgEx) ::
              [((0 : Int), (2 : Nat), msgEx),
               ((0 : Int), (3 : Nat), msgEx)])).Get 5 op.2.1).1 =
          some op.2.2 :=
  claim4_fifo_overflow 2 (by decide) false ((0 : Int), (1 : Nat), msgEx)
    [((0 : Int), (2 : Nat), msgEx), ((0 : Int), (3 : Nat), msgEx)] 5
    (by decide) (by decide) (by decide) (by decide)

end Zdns
